import Mathlib

/-!
Verification of the SimpCop hierarchical selection model (src/main.py).

The filesystem subtree shown by the `CheckableFileSystemModel` is embedded as
an inductive tree `Entry`; a Qt `QModelIndex` is embedded as the list of row
numbers leading from the node up to the root (head = row of the node in its
parent, `[]` = the base-directory root index, `tail` = the parent index).
The model's `checked_indexes : set` is a `Finset Path`.

All operations are translated line by line from `src/main.py`:
`setData` (lines 35-45), `update_children` (47-52), `update_parent` (54-74),
`index_valid` (79-81), `get_all_file_indexes` (83-97), and the `MainWindow`
methods `select_base_directory` (275-284), `select_all_files` (425-431),
`deselect_all_files` (434-440), `load_presets` (286-301) and the file-assembly
loop of `update_final_prompt` (357-379).
-/

namespace SimpCop

/-- A filesystem entry: a file (leaf) or a directory with an ordered list of
children, mirroring the rows the `QFileSystemModel` exposes. -/
inductive Entry : Type where
  | file (name : String)
  | dir (name : String) (children : List Entry)

/-- A model index: the list of row numbers from the node to the root.
`[]` is the root (base-directory) index; `j :: p` is row `j` of the node
at index `p`.  `index.parent()` is thus `List.tail`, and the parent of the
root, like Qt's invalid index, is marked by the `[]` pattern. -/
abbrev Path := List Nat

/-- Resolve an index against the tree; `none` models an index that does not
denote a node of the current tree. -/
def nodeAt (t : Entry) : Path → Option Entry
  | [] => some t
  | j :: p =>
    match nodeAt t p with
    | some (.dir _ cs) => cs[j]?
    | _ => none

/-- `self.isDir(index)`: the index resolves to a directory. -/
def isDir (t : Entry) (p : Path) : Bool :=
  match nodeAt t p with
  | some (.dir _ _) => true
  | _ => false

/-- `self.rowCount(index)`: number of child rows of the node (0 for files). -/
def rowCount (t : Entry) (p : Path) : Nat :=
  match nodeAt t p with
  | some (.dir _ cs) => cs.length
  | _ => 0

/-- The name of an entry. -/
def Entry.name : Entry → String
  | .file n => n
  | .dir n _ => n

/-- The name carried by an index (the empty string off the tree). -/
def nameAt (t : Entry) (p : Path) : String :=
  match nodeAt t p with
  | some e => e.name
  | none => ""

/-- The characters after the last dot of a character list, or `none` when it
contains no dot. -/
def afterLastDot : List Char → Option (List Char)
  | [] => none
  | c :: cs =>
    match afterLastDot cs with
    | some r => some r
    | none => if c = '.' then some cs else none

/-- `QFileInfo.suffix()`: everything after the last dot of the name, and the
empty string when the name contains no dot. -/
def fileSuffix (name : String) : String :=
  match afterLastDot name.data with
  | some r => ⟨r⟩
  | none => ""

/-- `str.lower()` as a character-wise lowercase map. -/
def lowerString (s : String) : String :=
  ⟨s.data.map Char.toLower⟩

/-- `index_valid` (src/main.py lines 79-81): a directory, or a file whose
lower-cased suffix is in the configured extension allow-list. -/
def index_valid (t : Entry) (exts : List String) (p : Path) : Bool :=
  isDir t p || exts.contains (lowerString (fileSuffix (nameAt t p)))

/-- The fixed allow-list built in `MainWindow.__init__` (lines 110-117). -/
def extensionsList : List String :=
  ["py", "js", "ts", "svelte", "css", "html", "json", "txt",
   "md", "xml", "yml", "yaml", "sql", "jsx", "tsx", "php",
   "rb", "java", "c", "cpp", "cs", "sh", "bash", "go",
   "rs", "swift", "kt", "r", "dart", "scala", "ini",
   "env", "toml", "scss", "less", "pl", "lua", "ps1",
   "vb", "bat", "coffee"]

/-- Lines 37-40 of `setData`: add the index on `Qt.Checked`, discard it
otherwise. -/
def applyCheck (s : Finset Path) (p : Path) (v : Bool) : Finset Path :=
  if v then insert p s else s.erase p

/-- The counting loop of `update_parent` (lines 57-64): one pass over the
parent's rows accumulating `(checked, total)` over the non-directory
children. -/
def fileChildTotals (t : Entry) (p : Path) (s : Finset Path) : Nat × Nat :=
  (List.range (rowCount t p)).foldl
    (fun acc j =>
      if isDir t (j :: p) then acc
      else (acc.1 + (if (j :: p) ∈ s then 1 else 0), acc.2 + 1))
    (0, 0)

/-- `update_parent` (lines 54-74): if the parent index is valid, count the
parent's non-directory children; when the total is positive, rewrite the
parent's membership (all checked → add, none checked → discard, otherwise
add) and recurse on the parent.  The parent of index `j :: p` is `p`, and
the root `[]` has no valid parent. -/
def update_parent (t : Entry) : Path → Finset Path → Finset Path
  | [], s => s
  | _ :: p, s =>
    let ct := fileChildTotals t p s
    if 0 < ct.2 then
      let s' :=
        if ct.1 = ct.2 then insert p s
        else if ct.1 = 0 then s.erase p
        else insert p s
      update_parent t p s'
    else s

/-- `setData` specialised to a file index: a file has zero rows, so the
`update_children` loop of its recursive `setData` call runs zero times and
the call is the membership update (lines 37-40) followed by
`update_parent` (line 43).  `setData_on_file` below checks this against the
general `setData`. -/
def setDataFile (t : Entry) (p : Path) (v : Bool) (s : Finset Path) : Finset Path :=
  update_parent t p (applyCheck s p v)

/-- `update_children` (lines 47-52): loop over the rows of `index`; skip
directory children (`continue`), and call `setData` on each remaining child.
Such a child is a non-directory, so its `setData` call is the file case
`setDataFile`. -/
def update_children (t : Entry) (p : Path) (v : Bool) (s : Finset Path) : Finset Path :=
  (List.range (rowCount t p)).foldl
    (fun s j => if isDir t (j :: p) then s else setDataFile t (j :: p) v s) s

/-- `setData` with `Qt.CheckStateRole` on column 0 (lines 35-45): update the
index's own membership, then `update_children`, then `update_parent`. -/
def setData (t : Entry) (p : Path) (v : Bool) (s : Finset Path) : Finset Path :=
  update_parent t p (update_children t p v (applyCheck s p v))

/-- Number of non-directory children of `p` (the `total` of lines 58-62). -/
def fileTotal (t : Entry) (p : Path) : Nat :=
  (List.range (rowCount t p)).countP (fun j => !isDir t (j :: p))

/-- Number of checked non-directory children of `p` (the `checked` of
lines 57-64). -/
def checkedCount (t : Entry) (p : Path) (s : Finset Path) : Nat :=
  (List.range (rowCount t p)).countP
    (fun j => !isDir t (j :: p) && decide ((j :: p) ∈ s))

/-- The list of parent indexes rewritten by `update_parent t p`: the walk
stops at the first ancestor whose non-directory child total is zero. -/
def chain (t : Entry) : Path → List Path
  | [] => []
  | _ :: p => if 0 < fileTotal t p then p :: chain t p else []

theorem rowCount_eq_zero_of_not_isDir {t : Entry} {p : Path} (h : isDir t p = false) :
    rowCount t p = 0 := by
  unfold isDir at h
  unfold rowCount
  cases hn : nodeAt t p with
  | none => simp
  | some e =>
    cases e with
    | file n => simp
    | dir n cs => rw [hn] at h; simp at h

theorem isDir_of_rowCount_pos {t : Entry} {p : Path} (h : 0 < rowCount t p) :
    isDir t p = true := by
  by_contra hc
  simp only [Bool.not_eq_true] at hc
  rw [rowCount_eq_zero_of_not_isDir hc] at h
  exact Nat.lt_irrefl 0 h

theorem fileChildTotals_aux (t : Entry) (p : Path) (s : Finset Path) :
    ∀ (l : List Nat) (a b : Nat),
      l.foldl
        (fun acc j =>
          if isDir t (j :: p) then acc
          else (acc.1 + (if (j :: p) ∈ s then 1 else 0), acc.2 + 1))
        (a, b)
      = (a + l.countP (fun j => !isDir t (j :: p) && decide ((j :: p) ∈ s)),
         b + l.countP (fun j => !isDir t (j :: p))) := by
  intro l
  induction l with
  | nil => intro a b; simp
  | cons j l ih =>
    intro a b
    simp only [List.foldl_cons, List.countP_cons]
    by_cases hd : isDir t (j :: p)
    · simp only [hd, if_true]
      rw [ih a b]
      simp [hd]
    · simp only [hd, if_false, Bool.not_eq_true] at *
      rw [ih]
      by_cases hm : (j :: p) ∈ s
      · simp [hd, hm]; omega
      · simp [hd, hm]; omega

theorem fileChildTotals_eq (t : Entry) (p : Path) (s : Finset Path) :
    fileChildTotals t p s = (checkedCount t p s, fileTotal t p) := by
  unfold fileChildTotals checkedCount fileTotal
  rw [fileChildTotals_aux]
  simp

theorem length_lt_of_mem_chain {t : Entry} {q : Path} :
    ∀ {p : Path}, q ∈ chain t p → q.length < p.length := by
  intro p
  induction p with
  | nil => intro h; simp [chain] at h
  | cons i pp ih =>
    intro h
    unfold chain at h
    by_cases h0 : 0 < fileTotal t pp
    · rw [if_pos h0] at h
      rcases List.mem_cons.mp h with h1 | h1
      · subst h1; simp
      · exact Nat.lt_trans (ih h1) (by simp)
    · rw [if_neg h0] at h; simp at h

theorem not_mem_chain_self (t : Entry) (p : Path) : p ∉ chain t p := by
  intro h
  exact Nat.lt_irrefl _ (length_lt_of_mem_chain h)

theorem fileTotal_pos_of_mem_chain {t : Entry} {q : Path} :
    ∀ {p : Path}, q ∈ chain t p → 0 < fileTotal t q := by
  intro p
  induction p with
  | nil => intro h; simp [chain] at h
  | cons i pp ih =>
    intro h
    unfold chain at h
    by_cases h0 : 0 < fileTotal t pp
    · rw [if_pos h0] at h
      rcases List.mem_cons.mp h with h1 | h1
      · subst h1; exact h0
      · exact ih h1
    · rw [if_neg h0] at h; simp at h

theorem isDir_of_mem_chain {t : Entry} {q p : Path} (h : q ∈ chain t p) :
    isDir t q = true := by
  have h1 := fileTotal_pos_of_mem_chain h
  have h2 : 0 < rowCount t q := by
    by_contra hc
    have hz : rowCount t q = 0 := by omega
    unfold fileTotal at h1
    rw [hz] at h1
    simp at h1
  exact isDir_of_rowCount_pos h2

theorem not_mem_chain_of_not_isDir {t : Entry} {q : Path} (h : isDir t q = false) :
    ∀ p, q ∉ chain t p := by
  intro p hc
  rw [isDir_of_mem_chain hc] at h
  exact Bool.true_eq_false.mp h

theorem checkedCount_congr {t : Entry} {q : Path} {s1 s2 : Finset Path}
    (h : ∀ j, j < rowCount t q → isDir t (j :: q) = false →
      ((j :: q) ∈ s1 ↔ (j :: q) ∈ s2)) :
    checkedCount t q s1 = checkedCount t q s2 := by
  unfold checkedCount
  apply List.countP_congr
  intro j hj
  have hjlt : j < rowCount t q := List.mem_range.mp hj
  by_cases hd : isDir t (j :: q)
  · simp [hd]
  · simp only [Bool.not_eq_true] at hd
    have hiff := h j hjlt hd
    simp only [hd, Bool.not_false, Bool.true_and, decide_eq_true_eq]
    exact hiff

theorem checkedCount_insert_dir {t : Entry} {q r : Path} (hr : isDir t r = true)
    (s : Finset Path) : checkedCount t q (insert r s) = checkedCount t q s := by
  apply checkedCount_congr
  intro j _ hd
  have hne : j :: q ≠ r := by
    intro he; rw [he, hr] at hd; exact Bool.true_eq_false.mp hd
  simp [Finset.mem_insert, hne]

theorem checkedCount_erase_dir {t : Entry} {q r : Path} (hr : isDir t r = true)
    (s : Finset Path) : checkedCount t q (s.erase r) = checkedCount t q s := by
  apply checkedCount_congr
  intro j _ hd
  have hne : j :: q ≠ r := by
    intro he; rw [he, hr] at hd; exact Bool.true_eq_false.mp hd
  simp [Finset.mem_erase, hne]

theorem checkedCount_pos_of_mem {t : Entry} {q : Path} {j : Nat} {s : Finset Path}
    (hj : j < rowCount t q) (hd : isDir t (j :: q) = false) (hm : (j :: q) ∈ s) :
    0 < checkedCount t q s := by
  unfold checkedCount
  rw [List.countP_pos_iff]
  exact ⟨j, List.mem_range.mpr hj, by simp [hd, hm]⟩

theorem checkedCount_empty (t : Entry) (q : Path) : checkedCount t q ∅ = 0 := by
  unfold checkedCount
  rw [List.countP_eq_zero]
  intro j _
  simp

theorem mem_writeParent_iff {pp : Path} {s : Finset Path} {c tt : Nat} {q : Path}
    (hq : q ≠ pp) :
    (q ∈ (if c = tt then insert pp s else if c = 0 then s.erase pp else insert pp s))
      ↔ q ∈ s := by
  split_ifs <;> simp [Finset.mem_insert, Finset.mem_erase, hq]

theorem self_mem_writeParent_iff {pp : Path} {s : Finset Path} {c tt : Nat}
    (htt : 0 < tt) :
    (pp ∈ (if c = tt then insert pp s else if c = 0 then s.erase pp else insert pp s))
      ↔ 0 < c := by
  split_ifs with h1 h2
  · simp only [Finset.mem_insert, true_or, true_iff]; omega
  · simp only [Finset.mem_erase, ne_eq, not_true_eq_false, false_and, false_iff]; omega
  · simp only [Finset.mem_insert, true_or, true_iff]; omega

/-- Frame property of `update_parent`: a path it does not rewrite (one off the
parent chain) keeps its membership. -/
theorem mem_update_parent_of_not_mem_chain {t : Entry} {q : Path} :
    ∀ {p : Path} {s : Finset Path}, q ∉ chain t p →
      (q ∈ update_parent t p s ↔ q ∈ s) := by
  intro p
  induction p with
  | nil => intro s _; simp [update_parent]
  | cons i pp ih =>
    intro s h
    unfold chain at h
    unfold update_parent
    rw [fileChildTotals_eq]
    by_cases h0 : 0 < fileTotal t pp
    · rw [if_pos h0] at h
      have hq1 : q ≠ pp := fun he => h (by rw [he]; exact List.mem_cons_self _ _)
      have hq2 : q ∉ chain t pp := fun hc => h (List.mem_cons_of_mem _ hc)
      simp only [h0, if_true]
      rw [ih hq2]
      exact mem_writeParent_iff hq1
    · simp [h0]

/-- Value property of `update_parent`: a parent on the chain is rewritten to
the aggregate of its non-directory children — in the set iff at least one of
them is checked (all checked → add, none → discard, partial → add, and the
chain guarantees a positive total). -/
theorem mem_update_parent_of_mem_chain {t : Entry} {q : Path} :
    ∀ {p : Path} {s : Finset Path}, q ∈ chain t p →
      (q ∈ update_parent t p s ↔ 0 < checkedCount t q s) := by
  intro p
  induction p with
  | nil => intro s h; simp [chain] at h
  | cons i pp ih =>
    intro s h
    unfold chain at h
    unfold update_parent
    rw [fileChildTotals_eq]
    by_cases h0 : 0 < fileTotal t pp
    · rw [if_pos h0] at h
      simp only [h0, if_true]
      have hdirpp : isDir t pp = true := by
        have h2 : 0 < rowCount t pp := by
          by_contra hc
          have hz : rowCount t pp = 0 := by omega
          unfold fileTotal at h0
          rw [hz] at h0
          simp at h0
        exact isDir_of_rowCount_pos h2
      rcases List.mem_cons.mp h with h1 | h1
      · subst h1
        rw [mem_update_parent_of_not_mem_chain (not_mem_chain_self t q)]
        exact self_mem_writeParent_iff h0
      · rw [ih h1]
        split_ifs with hA hB
        · rw [checkedCount_insert_dir hdirpp]
        · rw [checkedCount_erase_dir hdirpp]
        · rw [checkedCount_insert_dir hdirpp]
    · rw [if_neg h0] at h; simp at h

/-- Sanity check of the `setDataFile` shortcut: on an index with zero rows
(in particular any file index) the general `setData` agrees with it. -/
theorem setData_on_file {t : Entry} {p : Path} (h : rowCount t p = 0)
    (v : Bool) (s : Finset Path) : setData t p v s = setDataFile t p v s := by
  unfold setData setDataFile update_children
  rw [h]
  simp

theorem mem_update_parent_of_not_isDir {t : Entry} {q : Path}
    (h : isDir t q = false) (p : Path) (s : Finset Path) :
    q ∈ update_parent t p s ↔ q ∈ s :=
  mem_update_parent_of_not_mem_chain (not_mem_chain_of_not_isDir h p)

theorem mem_applyCheck_self (s : Finset Path) (p : Path) (v : Bool) :
    p ∈ applyCheck s p v ↔ v = true := by
  unfold applyCheck
  cases v <;> simp

theorem mem_applyCheck_of_ne {q p : Path} (h : q ≠ p) (s : Finset Path) (v : Bool) :
    q ∈ applyCheck s p v ↔ q ∈ s := by
  unfold applyCheck
  cases v <;> simp [Finset.mem_insert, Finset.mem_erase, h]

theorem mem_setDataFile_self {t : Entry} {p : Path} (h : isDir t p = false)
    (v : Bool) (s : Finset Path) : p ∈ setDataFile t p v s ↔ v = true := by
  unfold setDataFile
  rw [mem_update_parent_of_not_isDir h, mem_applyCheck_self]

theorem chain_cons (t : Entry) (j : Nat) (p : Path) :
    chain t (j :: p) = if 0 < fileTotal t p then p :: chain t p else [] := rfl

/-- Once a non-directory child's membership equals the pushed value, the rest
of the `update_children` loop keeps it there. -/
theorem uc_invariant {t : Entry} {p : Path} {v : Bool} {j : Nat}
    (hd : isDir t (j :: p) = false) :
    ∀ (js : List Nat) (s : Finset Path), ((j :: p) ∈ s ↔ v = true) →
      ((j :: p) ∈ js.foldl
          (fun s j => if isDir t (j :: p) then s else setDataFile t (j :: p) v s) s
        ↔ v = true) := by
  intro js
  induction js with
  | nil => intro s h; simpa using h
  | cons j' js ih =>
    intro s h
    rw [List.foldl_cons]
    by_cases hd' : isDir t (j' :: p)
    · rw [if_pos hd']
      exact ih s h
    · rw [if_neg hd']
      apply ih
      unfold setDataFile
      rw [mem_update_parent_of_not_isDir hd]
      by_cases he : (j : Nat) :: p = j' :: p
      · rw [he, mem_applyCheck_self]
      · rw [mem_applyCheck_of_ne he]
        exact h

/-- A non-directory child that the `update_children` loop visits ends with
the pushed value. -/
theorem uc_sets_child {t : Entry} {p : Path} {v : Bool} {j : Nat}
    (hd : isDir t (j :: p) = false) (js : List Nat) (s : Finset Path)
    (hj : j ∈ js) :
    (j :: p) ∈ js.foldl
        (fun s j => if isDir t (j :: p) then s else setDataFile t (j :: p) v s) s
      ↔ v = true := by
  obtain ⟨l1, l2, rfl⟩ := List.append_of_mem hj
  rw [List.foldl_append, List.foldl_cons, if_neg (by simp [hd])]
  exact uc_invariant hd l2 _ (mem_setDataFile_self hd v _)

/-- During `update_children` with value `Checked`, the toggled index `p`
itself stays in the set: each child's `update_parent` rewrites `p` to a
positive aggregate (the child just checked witnesses it). -/
theorem uc_keeps_parent {t : Entry} {p : Path} :
    ∀ (js : List Nat) (s : Finset Path), (∀ j' ∈ js, j' < rowCount t p) →
      p ∈ s →
      p ∈ js.foldl
        (fun s j => if isDir t (j :: p) then s else setDataFile t (j :: p) true s) s := by
  intro js
  induction js with
  | nil => intro s _ hp; simpa using hp
  | cons j' js ih =>
    intro s hb hp
    rw [List.foldl_cons]
    by_cases hd' : isDir t (j' :: p)
    · rw [if_pos hd']
      exact ih s (fun j hj => hb j (List.mem_cons_of_mem _ hj)) hp
    · rw [if_neg hd']
      apply ih _ (fun j hj => hb j (List.mem_cons_of_mem _ hj))
      unfold setDataFile
      have hins : p ∈ applyCheck s (j' :: p) true := by
        unfold applyCheck
        simp [Finset.mem_insert, hp]
      by_cases hchain : p ∈ chain t (j' :: p)
      · rw [mem_update_parent_of_mem_chain hchain]
        refine checkedCount_pos_of_mem (hb j' (List.mem_cons_self _ _))
          (by simpa using hd') ?_
        unfold applyCheck
        simp
      · rw [mem_update_parent_of_not_mem_chain hchain]
        exact hins

/-- Frame property of the `update_children` loop: a path that is neither the
toggled index, nor one of its child rows, nor on its parent chain, keeps its
membership. -/
theorem uc_frame {t : Entry} {p : Path} {v : Bool} {q : Path}
    (h1 : q ≠ p) (h2 : ∀ j, q ≠ j :: p) (h3 : q ∉ chain t p) :
    ∀ (js : List Nat) (s : Finset Path),
      (q ∈ js.foldl
          (fun s j => if isDir t (j :: p) then s else setDataFile t (j :: p) v s) s
        ↔ q ∈ s) := by
  intro js
  induction js with
  | nil => intro s; simp
  | cons j' js ih =>
    intro s
    rw [List.foldl_cons]
    by_cases hd' : isDir t (j' :: p)
    · rw [if_pos hd']
      exact ih s
    · rw [if_neg hd']
      rw [ih]
      unfold setDataFile
      have hq : q ∉ chain t (j' :: p) := by
        rw [chain_cons]
        by_cases h0 : 0 < fileTotal t p
        · rw [if_pos h0]
          intro hc
          rcases List.mem_cons.mp hc with hc1 | hc1
          · exact h1 hc1
          · exact h3 hc1
        · rw [if_neg h0]; simp
      rw [mem_update_parent_of_not_mem_chain hq, mem_applyCheck_of_ne (h2 j')]

/-- The toggled index itself is always left in the selection set by
`setData(index, Checked)`: line 38 adds it directly, each child toggle
re-adds it as a (now positive) aggregate, and the final `update_parent`
rewrites only ancestors. -/
theorem mem_setData_self (t : Entry) (p : Path) (s : Finset Path) :
    p ∈ setData t p true s := by
  unfold setData update_children
  rw [mem_update_parent_of_not_mem_chain (not_mem_chain_self t p)]
  apply uc_keeps_parent _ _ (fun j hj => List.mem_range.mp hj)
  rw [mem_applyCheck_self]

/-- Base dir with one directory `D` that only holds a subdirectory `sub`
containing the file `f.py`: the paths are `D = [0]`, `sub = [0,0]`,
`f.py = [0,0,0]`. -/
def treeA : Entry := .dir "r" [.dir "D" [.dir "sub" [.file "f.py"]]]

/-- Base dir with one empty directory `D = [0]`. -/
def treeB : Entry := .dir "r" [.dir "D" []]

/-- Base dir with a directory `D = [0]` holding the file `a.py = [0,0]` and a
subdirectory `sub = [0,1]` containing `c.py = [0,1,0]`. -/
def treeC : Entry := .dir "r" [.dir "D" [.file "a.py", .dir "sub" [.file "c.py"]]]

/-- C1, counterexample: in `treeA` the directory `D = [0]` has the descendant
leaf `f.py = [0,0,0]` inside its subdirectory `sub`, yet
`setData(D, Checked)` leaves that leaf unchecked — `update_children` skips
directory children instead of recursing into them (src/main.py lines 50-51),
so the checked value is not applied to every descendant leaf. -/
theorem c1_counterexample :
    isDir treeA [0] = true ∧ isDir treeA [0, 0, 0] = false ∧
    index_valid treeA extensionsList [0, 0, 0] = true ∧
    ([0, 0, 0] : Path) ∉ setData treeA [0] true ∅ := by decide

/-- C1 (amended): `setData(D, v)` applies the checked value `v` exactly to
`D`'s immediate non-directory children; any path lying two or more levels
below `D` (in particular every leaf inside a subdirectory of `D`) keeps its
previous membership. -/
theorem c1_immediate_children_only (t : Entry) (D : Path) (v : Bool) (s : Finset Path) :
    (∀ j, j < rowCount t D → isDir t (j :: D) = false →
      ((j :: D) ∈ setData t D v s ↔ v = true)) ∧
    (∀ x q, q = x ++ D → 2 ≤ x.length → (q ∈ setData t D v s ↔ q ∈ s)) := by
  constructor
  · intro j hj hd
    unfold setData
    rw [mem_update_parent_of_not_isDir hd]
    unfold update_children
    exact uc_sets_child hd _ _ (List.mem_range.mpr hj)
  · intro x q hq hx
    have hlen : D.length + 2 ≤ q.length := by
      subst hq
      rw [List.length_append]
      omega
    have h1 : q ≠ D := by
      intro he
      rw [he] at hlen
      omega
    have h2 : ∀ j, q ≠ j :: D := by
      intro j he
      rw [he, List.length_cons] at hlen
      omega
    have h3 : q ∉ chain t D := by
      intro hc
      have := length_lt_of_mem_chain hc
      omega
    unfold setData
    rw [mem_update_parent_of_not_mem_chain h3]
    unfold update_children
    rw [uc_frame h1 h2 h3]
    exact mem_applyCheck_of_ne h1 _ _

/-- Witness for C1: in `treeC`, checking `D = [0]` checks its immediate file
child `a.py = [0,0]` but leaves the nested leaf `c.py = [0,1,0]` untouched. -/
theorem c1_immediate_children_only_witness :
    (([0, 0] : Path) ∈ setData treeC [0] true ∅) ∧
    (([0, 1, 0] : Path) ∉ setData treeC [0] true ∅) := by
  constructor
  · exact ((c1_immediate_children_only treeC [0] true ∅).1 0 (by decide) (by decide)).mpr rfl
  · intro h
    exact Finset.not_mem_empty _
      (((c1_immediate_children_only treeC [0] true ∅).2 [0, 1] [0, 1, 0] rfl
        (by decide)).mp h)

/-- C2, counterexample: `D = [0]` of `treeB` is an empty directory (no
descendant leaves at all, checked or not), yet `setData(D, Checked)` leaves
`D` in the selection set — line 38 of src/main.py adds the toggled index
itself, directory or not, and with no file children no aggregate pass ever
removes it. -/
theorem c2_counterexample :
    isDir treeB [0] = true ∧ rowCount treeB [0] = 0 ∧
    ([0] : Path) ∈ setData treeB [0] true ∅ := by decide

/-- C2 (amended): the `setChecked` path does add the toggled directory itself
to the selection set directly: after `setData(D, Checked)` the index `D` is
always a member, regardless of the state of its descendant leaves. -/
theorem c2_directory_added_directly (t : Entry) (D : Path) (s : Finset Path) :
    D ∈ setData t D true s :=
  mem_setData_self t D s

/-- C3, counterexample: in `treeA` the only leaf of `D = [0]` is
`f.py = [0,0,0]`, inside the subdirectory `sub`. Checking that leaf
individually does not put `D` into the selection set (the upward walk stops
at `sub`'s parent because `D` has no immediate file child), while toggling
`D` itself does — the two routes disagree on `D`'s aggregate state. -/
theorem c3_counterexample :
    isDir treeA [0] = true ∧ isDir treeA [0, 0, 0] = false ∧
    (([0] : Path) ∉ setData treeA [0, 0, 0] true ∅) ∧
    (([0] : Path) ∈ setData treeA [0] true ∅) := by decide

/-- Aggregate consistency of a selection state: every directory with at least
one non-directory child row is in the set exactly when at least one of those
children is checked.  This is the shape of every value `update_parent`
writes, so all states the model reaches from an empty selection satisfy it;
a state violating it is called stale. -/
def Consistent (t : Entry) (s : Finset Path) : Prop :=
  ∀ q : Path, 0 < fileTotal t q → (q ∈ s ↔ 0 < checkedCount t q s)

theorem consistent_empty (t : Entry) : Consistent t (∅ : Finset Path) := by
  intro q _
  rw [checkedCount_empty]
  simp

/-- One `update_parent` pass starting at `r` preserves, relative to a
consistent base state `s`, the membership of every path other than `D` and
`D`'s child rows — provided the pass only ever rewrites `D` or members of
`D`'s parent chain. -/
theorem up_pred_step {t : Entry} {s : Finset Path} {D : Path}
    (hcons : Consistent t s) (hdir : isDir t D = true) {s_cur : Finset Path}
    (hP : ∀ q, q ≠ D → (∀ j, q ≠ j :: D) → (q ∈ s_cur ↔ q ∈ s))
    (r : Path) (hr : ∀ z ∈ chain t r, z = D ∨ z ∈ chain t D) :
    ∀ q, q ≠ D → (∀ j, q ≠ j :: D) →
      (q ∈ update_parent t r s_cur ↔ q ∈ s) := by
  intro q hq1 hq2
  by_cases hch : q ∈ chain t r
  · rcases hr q hch with he | hqD
    · exact absurd he hq1
    · rw [mem_update_parent_of_mem_chain hch]
      have hlen : q.length < D.length := length_lt_of_mem_chain hqD
      have hcnt : checkedCount t q s_cur = checkedCount t q s := by
        apply checkedCount_congr
        intro j'' _ hd''
        apply hP
        · intro he
          rw [he, hdir] at hd''
          exact Bool.true_eq_false.mp hd''
        · intro j he
          have hle := congrArg List.length he
          simp only [List.length_cons] at hle
          omega
      rw [hcnt]
      exact (hcons q (fileTotal_pos_of_mem_chain hqD)).symm
  · rw [mem_update_parent_of_not_mem_chain hch]
    exact hP q hq1 hq2

/-- The `update_children` loop of a toggled directory `D` preserves, relative
to a consistent base state, the membership of every path other than `D` and
`D`'s child rows: child toggles write only the children themselves, and every
parent-chain rewrite re-derives an ancestor's value from file children that
the toggle never changed. -/
theorem uc_pred {t : Entry} {s : Finset Path} {D : Path} {v : Bool}
    (hcons : Consistent t s) (hdir : isDir t D = true) :
    ∀ (js : List Nat) (s_cur : Finset Path),
      (∀ q, q ≠ D → (∀ j, q ≠ j :: D) → (q ∈ s_cur ↔ q ∈ s)) →
      ∀ q, q ≠ D → (∀ j, q ≠ j :: D) →
        (q ∈ js.foldl
            (fun s j => if isDir t (j :: D) then s else setDataFile t (j :: D) v s) s_cur
          ↔ q ∈ s) := by
  intro js
  induction js with
  | nil => intro s_cur hP q hq1 hq2; simpa using hP q hq1 hq2
  | cons j' js ih =>
    intro s_cur hP
    rw [List.foldl_cons]
    by_cases hd' : isDir t (j' :: D)
    · rw [if_pos hd']
      exact ih s_cur hP
    · rw [if_neg hd']
      apply ih
      unfold setDataFile
      apply up_pred_step hcons hdir
      · intro q hq1 hq2
        rw [mem_applyCheck_of_ne (hq2 j')]
        exact hP q hq1 hq2
      · intro z hz
        rw [chain_cons] at hz
        by_cases h0 : 0 < fileTotal t D
        · rw [if_pos h0] at hz
          exact List.mem_cons.mp hz
        · rw [if_neg h0] at hz
          simp at hz

/-- From a consistent state, toggling a directory `D` changes no membership
outside `D` itself and `D`'s immediate child rows — in particular every
ancestor of `D` keeps its membership. -/
theorem setData_ancestors_frame {t : Entry} {s : Finset Path} {D : Path}
    (hcons : Consistent t s) (hdir : isDir t D = true) (v : Bool) :
    ∀ q, q ≠ D → (∀ j, q ≠ j :: D) → (q ∈ setData t D v s ↔ q ∈ s) := by
  unfold setData update_children
  apply up_pred_step hcons hdir
  · apply uc_pred hcons hdir
    intro q hq1 _
    exact mem_applyCheck_of_ne hq1 s v
  · intro z hz
    exact Or.inr hz

/-- Base dir `b` holding a directory `P = [0]` whose rows are the empty
directory `D = [0,0]` and the file `f.py = [1,0]`. -/
def treeD : Entry := .dir "b" [.dir "P" [.dir "D" [], .file "f.py"]]

/-- C7, counterexample: in `treeD` take the stale state `{P}` (the directory
`P = [0]` is in the selection set while its file child `f.py = [1,0]` is
unchecked).  `D = [0,0]` has zero matching-extension children, yet
`setData(D, Checked)` removes the ancestor `P` from the selection set: the
upward pass recomputes `P`'s aggregate (checked 0 of total 1) and rewrites
it, so as stated — over arbitrary selection states — the claim fails. -/
theorem c7_counterexample :
    isDir treeD [0, 0] = true ∧
    (List.range (rowCount treeD [0, 0])).countP
      (fun j => !isDir treeD (j :: [0, 0]) &&
        index_valid treeD extensionsList (j :: [0, 0])) = 0 ∧
    ([0, 0] : Path) = [0] ++ [0] ∧
    ([0] : Path) ∈ ({[0]} : Finset Path) ∧
    ([0] : Path) ∉ setData treeD [0, 0] true {[0]} := by decide

/-- C7 (amended): provided the starting selection state is
aggregate-consistent (as every state the model builds from an empty
selection is), toggling a directory `D` with zero matching-extension
children leaves the membership of every ancestor of `D` unchanged; on stale
states the upward pass may rewrite an ancestor (see the counterexample). -/
theorem c7_consistent_ancestors_unchanged (t : Entry) (exts : List String)
    (D : Path) (v : Bool) (s : Finset Path)
    (hcons : Consistent t s) (hdir : isDir t D = true)
    (_hz : (List.range (rowCount t D)).countP
      (fun j => !isDir t (j :: D) && index_valid t exts (j :: D)) = 0)
    (A x : Path) (hx : x ≠ []) (hA : D = x ++ A) :
    A ∈ setData t D v s ↔ A ∈ s := by
  have hlen : A.length < D.length := by
    rw [hA, List.length_append]
    cases x with
    | nil => exact absurd rfl hx
    | cons a xs => simp only [List.length_cons]; omega
  apply setData_ancestors_frame hcons hdir
  · intro he
    rw [he] at hlen
    omega
  · intro j he
    rw [he, List.length_cons] at hlen
    omega

/-- Witness for C7: from the consistent empty state in `treeD`, toggling the
empty directory `D = [0,0]` leaves its ancestor `P = [0]` out of the
selection set. -/
theorem c7_consistent_ancestors_unchanged_witness :
    ([0] : Path) ∉ setData treeD [0, 0] true (∅ : Finset Path) := by
  intro h
  exact Finset.not_mem_empty ([0] : Path)
    ((c7_consistent_ancestors_unchanged treeD extensionsList [0, 0] true ∅
      (consistent_empty treeD) (by decide) (by decide) [0] [0] (by decide) rfl).mp h)

mutual

/-- Number of nodes of an entry, the termination measure of the traversal. -/
def Entry.size : Entry → Nat
  | .file _ => 1
  | .dir _ cs => 1 + Entry.sizeList cs

/-- Total size of a list of entries. -/
def Entry.sizeList : List Entry → Nat
  | [] => 0
  | e :: es => Entry.size e + Entry.sizeList es

end

/-- Size of the subtree an index resolves to (0 off the tree). -/
def sizeAt (t : Entry) (p : Path) : Nat :=
  match nodeAt t p with
  | some e => e.size
  | none => 0

theorem nodeAt_cons (t : Entry) (j : Nat) (p : Path) :
    nodeAt t (j :: p) =
      match nodeAt t p with
      | some (.dir _ cs) => cs[j]?
      | _ => none := rfl

/-- Resolution factors through any split of the index: the part `x` below is
resolved inside whatever the part `p` above resolves to. -/
theorem nodeAt_append (t : Entry) :
    ∀ (x p : Path), nodeAt t (x ++ p) =
      match nodeAt t p with
      | some e => nodeAt e x
      | none => none := by
  intro x
  induction x with
  | nil =>
    intro p
    cases h : nodeAt t p <;> simp [nodeAt, h]
  | cons y x' ih =>
    intro p
    rw [List.cons_append, nodeAt_cons, ih p]
    cases h : nodeAt t p with
    | none => rfl
    | some e =>
      show (match nodeAt e x' with | some (.dir _ cs) => cs[y]? | _ => none)
        = nodeAt e (y :: x')
      exact (nodeAt_cons e y x').symm

theorem nodeAt_append_some {t e : Entry} {p : Path} (x : Path)
    (h : nodeAt t p = some e) : nodeAt t (x ++ p) = nodeAt e x := by
  rw [nodeAt_append, h]

theorem nodeAt_isSome_of_append {t : Entry} {x p : Path} {e : Entry}
    (h : nodeAt t (x ++ p) = some e) : (nodeAt t p).isSome = true := by
  rw [nodeAt_append] at h
  cases hp : nodeAt t p with
  | none => rw [hp] at h; simp at h
  | some e' => simp

/-- A file resolves no non-empty relative index: files have no descendants. -/
theorem nodeAt_file_nil {nm : String} :
    ∀ {x : Path}, x ≠ [] → nodeAt (.file nm) x = none := by
  intro x
  induction x with
  | nil => intro h; exact absurd rfl h
  | cons y x' ih =>
    intro _
    rw [nodeAt_cons]
    by_cases hx : x' = []
    · subst hx; rfl
    · rw [ih hx]

theorem sum_size_range (cs : List Entry) :
    ((List.range cs.length).map
      (fun j => (match cs[j]? with | some e => Entry.size e | none => 0))).sum
      = Entry.sizeList cs := by
  induction cs with
  | nil => simp [Entry.sizeList]
  | cons c cs ih =>
    rw [List.length_cons, List.range_succ_eq_map, List.map_cons, List.map_map]
    have hmap : (List.range cs.length).map
        ((fun j => (match (c :: cs)[j]? with | some e => Entry.size e | none => 0))
          ∘ Nat.succ)
        = (List.range cs.length).map
            (fun j => (match cs[j]? with | some e => Entry.size e | none => 0)) := by
      apply List.map_congr_left
      intro a _
      simp only [Function.comp_apply, List.getElem?_cons_succ]
    rw [List.sum_cons, hmap, ih]
    simp [Entry.sizeList]

theorem isDir_node {t : Entry} {p : Path} (h : isDir t p = true) :
    ∃ n cs, nodeAt t p = some (.dir n cs) := by
  unfold isDir at h
  cases hn : nodeAt t p with
  | none => rw [hn] at h; simp at h
  | some e =>
    cases e with
    | file nm => rw [hn] at h; simp at h
    | dir n cs => exact ⟨n, cs, rfl⟩

theorem sizeAt_children_sum {t : Entry} {p : Path} {n : String} {cs : List Entry}
    (h : nodeAt t p = some (.dir n cs)) :
    ((List.range (rowCount t p)).map (fun j => sizeAt t (j :: p))).sum
      = Entry.sizeList cs := by
  have hrc : rowCount t p = cs.length := by unfold rowCount; rw [h]
  have hfun : ∀ j, sizeAt t (j :: p) =
      (match cs[j]? with | some e => Entry.size e | none => 0) := by
    intro j
    unfold sizeAt
    have : nodeAt t (j :: p) = cs[j]? := by rw [nodeAt_cons, h]
    rw [this]
  rw [hrc, List.map_congr_left (fun j _ => hfun j), sum_size_range]

/-- One iteration of the inner `for` loop of `get_all_file_indexes`
(src/main.py lines 90-96): directory children are pushed on the stack
(Python `list.append`, modelled by cons with the head as the stack top so
that `list.pop` is head removal), matching non-directory children are
appended to the output. -/
def gafi_step (t : Entry) (exts : List String) (parent : Path)
    (acc : List Path × List Path) (j : Nat) : List Path × List Path :=
  if isDir t (j :: parent) then ((j :: parent) :: acc.1, acc.2)
  else if index_valid t exts (j :: parent) then (acc.1, acc.2 ++ [j :: parent])
  else acc

theorem gafi_step_dir {t : Entry} {exts : List String} {parent : Path} {j : Nat}
    (hd : isDir t (j :: parent) = true) (acc : List Path × List Path) :
    gafi_step t exts parent acc j = ((j :: parent) :: acc.1, acc.2) := by
  unfold gafi_step
  rw [if_pos hd]

theorem gafi_step_file {t : Entry} {exts : List String} {parent : Path} {j : Nat}
    (hd : isDir t (j :: parent) = false) (hv : index_valid t exts (j :: parent) = true)
    (acc : List Path × List Path) :
    gafi_step t exts parent acc j = (acc.1, acc.2 ++ [j :: parent]) := by
  unfold gafi_step
  rw [if_neg (by simp [hd]), if_pos hv]

theorem gafi_step_skip {t : Entry} {exts : List String} {parent : Path} {j : Nat}
    (hd : isDir t (j :: parent) = false) (hv : index_valid t exts (j :: parent) = false)
    (acc : List Path × List Path) :
    gafi_step t exts parent acc j = acc := by
  unfold gafi_step
  rw [if_neg (by simp [hd]), if_neg (by simp [hv])]

theorem gafi_fold_eq (t : Entry) (exts : List String) (parent : Path) :
    ∀ (l : List Nat) (st fs : List Path),
      l.foldl (gafi_step t exts parent) (st, fs)
        = (((l.filter (fun j => isDir t (j :: parent))).map
              (fun j => j :: parent)).reverse ++ st,
           fs ++ (l.filter (fun j => !isDir t (j :: parent)
              && index_valid t exts (j :: parent))).map (fun j => j :: parent)) := by
  intro l
  induction l with
  | nil => intro st fs; simp
  | cons j l ih =>
    intro st fs
    rw [List.foldl_cons]
    by_cases hd : isDir t (j :: parent)
    · rw [gafi_step_dir hd, ih]
      simp [hd, List.filter_cons]
    · simp only [Bool.not_eq_true] at hd
      by_cases hv : index_valid t exts (j :: parent)
      · rw [gafi_step_file hd hv, ih]
        simp [hd, hv, List.filter_cons]
      · simp only [Bool.not_eq_true] at hv
        rw [gafi_step_skip hd hv, ih]
        simp [hd, hv, List.filter_cons]

theorem gafi_dirs_sum_lt (t : Entry) (parent : Path)
    (h0 : 0 < rowCount t parent) :
    ((((List.range (rowCount t parent)).filter (fun j => isDir t (j :: parent))).map
        (fun j => j :: parent)).map (sizeAt t)).sum < sizeAt t parent := by
  obtain ⟨n, cs, hn⟩ := isDir_node (isDir_of_rowCount_pos h0)
  rw [List.map_map]
  have hsub : (((List.range (rowCount t parent)).filter
        (fun j => isDir t (j :: parent))).map (sizeAt t ∘ (fun j => j :: parent))).Sublist
      ((List.range (rowCount t parent)).map (sizeAt t ∘ (fun j => j :: parent))) :=
    List.Sublist.map _ (List.filter_sublist _)
  have hle := List.Sublist.sum_le_sum hsub (fun a _ => Nat.zero_le a)
  have heq : ((List.range (rowCount t parent)).map
      (sizeAt t ∘ (fun j => j :: parent))).sum = Entry.sizeList cs := by
    rw [show (sizeAt t ∘ (fun j => j :: parent)) = (fun j => sizeAt t (j :: parent))
      from rfl]
    exact sizeAt_children_sum hn
  rw [heq] at hle
  have hsz : sizeAt t parent = 1 + Entry.sizeList cs := by
    unfold sizeAt
    rw [hn]
    rfl
  omega

/-- The `while stack:` loop of `get_all_file_indexes` (src/main.py
lines 87-96): pop an index, push its directory children, collect its
matching file children. -/
def gafi_loop (t : Entry) (exts : List String) : List Path → List Path → List Path
  | [], files => files
  | parent :: rest, files =>
    gafi_loop t exts
      ((List.range (rowCount t parent)).foldl (gafi_step t exts parent) (rest, files)).1
      ((List.range (rowCount t parent)).foldl (gafi_step t exts parent) (rest, files)).2
termination_by stack _ => ((stack.map (sizeAt t)).sum, stack.length)
decreasing_by
  rw [gafi_fold_eq]
  simp only [List.map_cons, List.sum_cons, List.map_append, List.sum_append,
    List.map_reverse, List.sum_reverse, List.length_append, List.length_cons,
    List.length_reverse]
  by_cases h0 : 0 < rowCount t parent
  · exact Prod.Lex.left _ _ (by
      have := gafi_dirs_sum_lt t parent h0
      omega)
  · have hz : rowCount t parent = 0 := by omega
    rw [hz]
    simp only [List.range_zero, List.filter_nil, List.map_nil, List.sum_nil,
      List.length_nil, Nat.zero_add]
    rcases Nat.eq_zero_or_pos (sizeAt t parent) with hsz | hsz
    · rw [hsz]
      simp only [Nat.zero_add]
      exact Prod.Lex.right _ (by omega)
    · exact Prod.Lex.left _ _ (by omega)

/-- `get_all_file_indexes` (src/main.py lines 83-97): depth-first traversal
from the base-directory root collecting every matching file index. -/
def get_all_file_indexes (t : Entry) (exts : List String) : List Path :=
  gafi_loop t exts [[]] []

/-- The leaves the spec says `allLeaves()` yields: file nodes of the tree
whose lower-cased suffix is in the allow-list. -/
def eligibleLeaf (t : Entry) (exts : List String) (q : Path) : Prop :=
  ∃ nm, nodeAt t q = some (.file nm) ∧
    exts.contains (lowerString (fileSuffix nm)) = true

theorem nodeAt_child_some {t : Entry} {parent : Path} {j : Nat}
    (hj : j < rowCount t parent) : ∃ e, nodeAt t (j :: parent) = some e := by
  unfold rowCount at hj
  cases hn : nodeAt t parent with
  | none => rw [hn] at hj; simp at hj
  | some e =>
    cases e with
    | file nm => rw [hn] at hj; simp at hj
    | dir n cs =>
      rw [hn] at hj
      exact ⟨cs[j], by rw [nodeAt_cons, hn]; exact List.getElem?_eq_getElem hj⟩

theorem rowCount_of_child {t : Entry} {parent : Path} {j : Nat} {e : Entry}
    (h : nodeAt t (j :: parent) = some e) : j < rowCount t parent := by
  rw [nodeAt_cons] at h
  unfold rowCount
  cases hn : nodeAt t parent with
  | none => rw [hn] at h; simp at h
  | some e' =>
    cases e' with
    | file nm => rw [hn] at h; simp at h
    | dir n cs =>
      rw [hn] at h
      exact (List.getElem?_eq_some.mp h).1

theorem isDir_false_of_file {t : Entry} {q : Path} {nm : String}
    (h : nodeAt t q = some (.file nm)) : isDir t q = false := by
  unfold isDir
  rw [h]

theorem index_valid_file {t : Entry} {exts : List String} {q : Path} {nm : String}
    (h : nodeAt t q = some (.file nm)) :
    index_valid t exts q = exts.contains (lowerString (fileSuffix nm)) := by
  unfold index_valid isDir nameAt
  rw [h]
  simp [Entry.name]

/-- Handling of one popped index: among the children of `parent`, the
matching file children are exactly the eligible leaves one level below, and
the leaves strictly below some directory child are exactly the eligible
leaves two or more levels below. -/
theorem gafi_core (t : Entry) (exts : List String) (parent : Path) (q : Path) :
    (q ∈ ((List.range (rowCount t parent)).filter (fun j => !isDir t (j :: parent)
        && index_valid t exts (j :: parent))).map (fun j => j :: parent)
      ∨ ∃ p ∈ ((List.range (rowCount t parent)).filter
          (fun j => isDir t (j :: parent))).map (fun j => j :: parent),
          (∃ x, x ≠ [] ∧ q = x ++ p) ∧ eligibleLeaf t exts q)
    ↔ ((∃ x, x ≠ [] ∧ q = x ++ parent) ∧ eligibleLeaf t exts q) := by
  constructor
  · rintro (hnf | ⟨p, hp, ⟨x, hx, rfl⟩, hE⟩)
    · obtain ⟨j, hj, rfl⟩ := List.mem_map.mp hnf
      obtain ⟨hjr, hpred⟩ := List.mem_filter.mp hj
      have hjlt : j < rowCount t parent := List.mem_range.mp hjr
      simp only [Bool.and_eq_true, Bool.not_eq_true'] at hpred
      obtain ⟨e, he⟩ := nodeAt_child_some hjlt
      have hfile : ∃ nm, e = .file nm := by
        cases e with
        | file nm => exact ⟨nm, rfl⟩
        | dir n cs =>
          unfold isDir at hpred
          rw [he] at hpred
          simp at hpred
      obtain ⟨nm, rfl⟩ := hfile
      refine ⟨⟨[j], by simp, rfl⟩, nm, he, ?_⟩
      rw [index_valid_file he] at hpred
      exact hpred.2
    · obtain ⟨j, hj, rfl⟩ := List.mem_map.mp hp
      exact ⟨⟨x ++ [j], by simp, by rw [List.append_assoc, List.singleton_append]⟩, hE⟩
  · rintro ⟨⟨x, hx, rfl⟩, hE⟩
    obtain ⟨nm, hnm, hct⟩ := hE
    rcases List.eq_nil_or_concat x with rfl | ⟨x', j, rfl⟩
    · exact absurd rfl hx
    · rw [List.concat_eq_append, List.append_assoc, List.singleton_append] at hnm ⊢
      have hsome : (nodeAt t (j :: parent)).isSome = true :=
        nodeAt_isSome_of_append hnm
      obtain ⟨e, he⟩ := Option.isSome_iff_exists.mp hsome
      have hjlt : j < rowCount t parent := rowCount_of_child he
      by_cases hx' : x' = []
      · subst hx'
        rw [List.nil_append] at hnm
        rw [hnm] at he
        left
        apply List.mem_map.mpr
        refine ⟨j, List.mem_filter.mpr ⟨List.mem_range.mpr hjlt, ?_⟩, rfl⟩
        have hd : isDir t (j :: parent) = false := isDir_false_of_file hnm
        rw [Bool.and_eq_true, Bool.not_eq_true', hd]
        refine ⟨rfl, ?_⟩
        rw [index_valid_file hnm]
        exact hct
      · have hdir : isDir t (j :: parent) = true := by
          cases e with
          | file nm' =>
            rw [nodeAt_append_some x' he, nodeAt_file_nil hx'] at hnm
            exact absurd hnm (by simp)
          | dir n cs =>
            unfold isDir
            rw [he]
        right
        refine ⟨j :: parent, List.mem_map.mpr
          ⟨j, List.mem_filter.mpr ⟨List.mem_range.mpr hjlt, hdir⟩, rfl⟩,
          ⟨x', hx', rfl⟩, nm, hnm, hct⟩

/-- Invariant of the traversal loop: the collected output holds `files` plus
every eligible leaf strictly below some index still on the stack. -/
theorem gafi_loop_spec (t : Entry) (exts : List String) :
    ∀ (stack files : List Path) (q : Path),
      q ∈ gafi_loop t exts stack files ↔
        q ∈ files ∨ ∃ p ∈ stack, (∃ x, x ≠ [] ∧ q = x ++ p) ∧
          eligibleLeaf t exts q := by
  intro stack files
  induction stack, files using gafi_loop.induct t exts with
  | case1 files =>
    intro q
    simp [gafi_loop]
  | case2 parent rest files ih =>
    intro q
    rw [gafi_loop]
    rw [ih q, gafi_fold_eq]
    have hcore := gafi_core t exts parent q
    simp only [List.mem_append, List.mem_reverse, List.mem_cons, or_and_right,
      exists_or, exists_eq_left]
    constructor
    · rintro ((hf | hnf) | (hdirs | hrest))
      · exact Or.inl hf
      · exact Or.inr (Or.inl (hcore.mp (Or.inl hnf)))
      · obtain ⟨p, hp, hU, hE⟩ := hdirs
        exact Or.inr (Or.inl (hcore.mp (Or.inr ⟨p, hp, hU, hE⟩)))
      · exact Or.inr (Or.inr hrest)
    · rintro (hf | (hparent | hrest))
      · exact Or.inl (Or.inl hf)
      · rcases hcore.mpr hparent with hnf | hdirs
        · exact Or.inl (Or.inr hnf)
        · exact Or.inr (Or.inl hdirs)
      · exact Or.inr (Or.inr hrest)

/-- C4: over a base directory, `get_all_file_indexes` yields exactly the
file (leaf) nodes of the tree whose suffix, lower-cased, is in the
extension allow-list — never a directory, and never a file whose extension
is outside the list. -/
theorem c4_get_all_file_indexes_spec (n : String) (cs : List Entry)
    (exts : List String) (q : Path) :
    q ∈ get_all_file_indexes (.dir n cs) exts ↔
      eligibleLeaf (.dir n cs) exts q := by
  unfold get_all_file_indexes
  rw [gafi_loop_spec]
  simp only [List.not_mem_nil, false_or, List.mem_singleton, exists_eq_left,
    List.append_nil]
  constructor
  · rintro ⟨_, hE⟩
    exact hE
  · intro hE
    refine ⟨?_, hE⟩
    obtain ⟨nm, hnm, _⟩ := hE
    refine ⟨q, ?_, rfl⟩
    intro he
    rw [he] at hnm
    simp [nodeAt] at hnm

/-- Every index the traversal returns is a non-directory. -/
theorem gafi_isDir_false {t : Entry} {exts : List String} {q : Path}
    (h : q ∈ get_all_file_indexes t exts) : isDir t q = false := by
  unfold get_all_file_indexes at h
  rw [gafi_loop_spec] at h
  rcases h with h | ⟨_, _, _, nm, hnm, _⟩
  · simp at h
  · exact isDir_false_of_file hnm

/-- The model-level state of `MainWindow`: the chosen base directory, the
extension allow-list, the filesystem tree the model exposes, and the
model's `checked_indexes` set.  UI-only attributes (labels, text panes,
watcher) are not part of the selection model. -/
structure AppState where
  base_directory : Option String
  extensions : List String
  tree : Entry
  checked_indexes : Finset Path

/-- Python truthiness of `self.base_directory` (`None` and `''` are falsy). -/
def baseTruthy : Option String → Bool
  | none => false
  | some d => !(d = "")

/-- `select_base_directory` (src/main.py lines 275-284): the dialog returns a
directory string (empty when cancelled); when non-empty, the base directory
is stored, the model root moves to the freshly loaded tree `newTree`, and
`checked_indexes` is cleared. -/
def select_base_directory (st : AppState) (directory : String) (newTree : Entry) :
    AppState :=
  if directory = "" then st
  else { st with base_directory := some directory, tree := newTree,
                 checked_indexes := ∅ }

/-- `select_all_files` (src/main.py lines 425-431): bail out when no base
directory is set, otherwise `setData(index, Checked)` on every index of
`get_all_file_indexes`. -/
def select_all_files (st : AppState) : AppState :=
  if baseTruthy st.base_directory then
    { st with checked_indexes := ((get_all_file_indexes st.tree st.extensions).foldl
        (fun s p => setData st.tree p true s) st.checked_indexes) }
  else st

/-- `deselect_all_files` (src/main.py lines 434-440): bail out when no base
directory is set, otherwise `setData(index, Unchecked)` on every index of
`get_all_file_indexes`. -/
def deselect_all_files (st : AppState) : AppState :=
  if baseTruthy st.base_directory then
    { st with checked_indexes := ((get_all_file_indexes st.tree st.extensions).foldl
        (fun s p => setData st.tree p false s) st.checked_indexes) }
  else st

/-- C5: changing the base directory to any chosen (non-empty) directory
clears the selection set entirely, whatever it held before. -/
theorem c5_base_directory_clears_selection (st : AppState) (directory : String)
    (newTree : Entry) (h : directory ≠ "") :
    (select_base_directory st directory newTree).checked_indexes = ∅ := by
  unfold select_base_directory
  rw [if_neg h]

/-- Witness for C5: a concrete window state with a non-empty selection whose
selection set is empty right after the base directory changes. -/
theorem c5_base_directory_clears_selection_witness :
    (select_base_directory
      ⟨some "old", extensionsList, treeB, {[0]}⟩ "chosen" treeA).checked_indexes
      = ∅ :=
  c5_base_directory_clears_selection
    ⟨some "old", extensionsList, treeB, {[0]}⟩ "chosen" treeA (by decide)

/-- C10: with no base directory selected, `select_all_files` and
`deselect_all_files` return immediately and change nothing — neither the
selection set nor any other model state. -/
theorem c10_no_base_directory_noop (st : AppState) (h : st.base_directory = none) :
    select_all_files st = st ∧ deselect_all_files st = st := by
  constructor
  · unfold select_all_files
    rw [h]
    simp [baseTruthy]
  · unfold deselect_all_files
    rw [h]
    simp [baseTruthy]

/-- Witness for C10: a concrete window state without base directory on which
both bulk operations are the identity. -/
theorem c10_no_base_directory_noop_witness :
    select_all_files ⟨none, extensionsList, treeC, {[0]}⟩
        = ⟨none, extensionsList, treeC, {[0]}⟩ ∧
    deselect_all_files ⟨none, extensionsList, treeC, {[0]}⟩
        = ⟨none, extensionsList, treeC, {[0]}⟩ :=
  c10_no_base_directory_noop ⟨none, extensionsList, treeC, {[0]}⟩ rfl

theorem applyCheck_true (s : Finset Path) (p : Path) :
    applyCheck s p true = insert p s := by
  unfold applyCheck
  simp

theorem applyCheck_false (s : Finset Path) (p : Path) :
    applyCheck s p false = s.erase p := by
  unfold applyCheck
  simp

/-- On a list of non-directory indexes the bulk `setData` fold is the
file-case fold. -/
theorem fold_setData_eq_file (t : Entry) (v : Bool) :
    ∀ (L : List Path) (s : Finset Path), (∀ p ∈ L, isDir t p = false) →
      L.foldl (fun s p => setData t p v s) s
        = L.foldl (fun s p => setDataFile t p v s) s := by
  intro L
  induction L with
  | nil => intro s _; rfl
  | cons l L ih =>
    intro s h
    rw [List.foldl_cons, List.foldl_cons,
      setData_on_file (rowCount_eq_zero_of_not_isDir (h l (List.mem_cons_self _ _))),
      ih _ (fun p hp => h p (List.mem_cons_of_mem _ hp))]

/-- Frame of the deselect fold: a path that is neither one of the toggled
leaves nor on the parent chain of one keeps its membership. -/
theorem deselect_fold_frame {t : Entry} {q : Path} :
    ∀ (L : List Path) (s : Finset Path), q ∉ L → (∀ l ∈ L, q ∉ chain t l) →
      (q ∈ L.foldl (fun s p => setDataFile t p false s) s ↔ q ∈ s) := by
  intro L
  induction L with
  | nil => intro s _ _; simp
  | cons l L ih =>
    intro s hq hc
    rw [List.foldl_cons]
    rw [ih _ (fun h => hq (List.mem_cons_of_mem _ h))
        (fun l' hl' => hc l' (List.mem_cons_of_mem _ hl'))]
    unfold setDataFile
    have hne : q ≠ l := by
      intro he
      exact hq (by rw [he]; exact List.mem_cons_self _ _)
    rw [mem_update_parent_of_not_mem_chain (hc l (List.mem_cons_self _ _)),
      mem_applyCheck_of_ne hne]

theorem fileTotal_pos_of_child {t : Entry} {q : Path} {j : Nat}
    (hj : j < rowCount t q) (hd : isDir t (j :: q) = false) :
    0 < fileTotal t q := by
  unfold fileTotal
  rw [List.countP_pos_iff]
  exact ⟨j, List.mem_range.mpr hj, by simp [hd]⟩

theorem mem_chain_of_child {t : Entry} {q : Path} {j : Nat}
    (hj : j < rowCount t q) (hd : isDir t (j :: q) = false) :
    q ∈ chain t (j :: q) := by
  rw [chain_cons, if_pos (fileTotal_pos_of_child hj hd)]
  exact List.mem_cons_self _ _

/-- The select-all fold only reads the initial state at paths it does not
itself overwrite: two starting states that agree outside the toggled leaves
and their parent chains produce the same final state. -/
theorem select_fold_congr {t : Entry} :
    ∀ (L : List Path) (s1 s2 : Finset Path),
      (∀ q, q ∉ L → (∀ l ∈ L, q ∉ chain t l) → (q ∈ s1 ↔ q ∈ s2)) →
      L.foldl (fun s p => setDataFile t p true s) s1
        = L.foldl (fun s p => setDataFile t p true s) s2 := by
  intro L
  induction L with
  | nil =>
    intro s1 s2 h
    exact Finset.ext fun q => h q (by simp) (by simp)
  | cons l L ih =>
    intro s1 s2 h
    rw [List.foldl_cons, List.foldl_cons]
    apply ih
    intro q hqL hqc
    unfold setDataFile
    rw [applyCheck_true, applyCheck_true]
    by_cases hql : q = l
    · subst hql
      rw [mem_update_parent_of_not_mem_chain (not_mem_chain_self t q),
        mem_update_parent_of_not_mem_chain (not_mem_chain_self t q)]
      simp
    · by_cases hqchain : q ∈ chain t l
      · rw [mem_update_parent_of_mem_chain hqchain,
          mem_update_parent_of_mem_chain hqchain]
        have hcnt : checkedCount t q (insert l s1) = checkedCount t q (insert l s2) := by
          apply checkedCount_congr
          intro j hj hd
          by_cases he : (j : Nat) :: q = l
          · simp [he]
          · rw [Finset.mem_insert, Finset.mem_insert]
            have hiff : (j :: q) ∈ s1 ↔ (j :: q) ∈ s2 := by
              apply h
              · intro hmem
                rcases List.mem_cons.mp hmem with h1 | h1
                · exact he h1
                · exact hqc (j :: q) h1 (mem_chain_of_child hj hd)
              · intro l' _
                exact not_mem_chain_of_not_isDir hd l'
            rw [hiff]
        rw [hcnt]
      · rw [mem_update_parent_of_not_mem_chain hqchain,
          mem_update_parent_of_not_mem_chain hqchain,
          Finset.mem_insert, Finset.mem_insert]
        have hiff : q ∈ s1 ↔ q ∈ s2 := by
          apply h
          · intro hmem
            rcases List.mem_cons.mp hmem with h1 | h1
            · exact hql h1
            · exact hqL h1
          · intro l' hl'
            rcases List.mem_cons.mp hl' with h1 | h1
            · exact fun hc => hqchain (h1 ▸ hc)
            · exact hqc l' h1
        rw [hiff]

/-- Unchecking a list of file indexes and re-checking them all lands in the
same state as checking them all directly: the deselect pass only disturbs
the toggled leaves and their parent chains, and the select pass overwrites
exactly those. -/
theorem select_after_deselect (t : Entry) (L : List Path) (s : Finset Path)
    (hfiles : ∀ p ∈ L, isDir t p = false) :
    L.foldl (fun s p => setData t p true s)
        (L.foldl (fun s p => setData t p false s) s)
      = L.foldl (fun s p => setData t p true s) s := by
  have h1 := fold_setData_eq_file t false L s hfiles
  have h2 := fun s' => fold_setData_eq_file t true L s' hfiles
  rw [h1, h2 _, h2 s]
  apply select_fold_congr
  intro q hqL hqc
  exact deselect_fold_frame L s hqL hqc

/-- C6: from any window state, `deselect_all_files` followed by
`select_all_files` produces exactly the state `select_all_files` alone
produces. -/
theorem c6_deselect_then_select (st : AppState) :
    select_all_files (deselect_all_files st) = select_all_files st := by
  obtain ⟨b, exts, t, c⟩ := st
  unfold deselect_all_files select_all_files
  dsimp only
  by_cases hb : baseTruthy b
  · rw [if_pos hb]
    dsimp only
    rw [if_pos hb, if_pos hb]
    have hfiles : ∀ p ∈ get_all_file_indexes t exts, isDir t p = false :=
      fun p hp => gafi_isDir_false hp
    rw [select_after_deselect t (get_all_file_indexes t exts) c hfiles]
  · rw [if_neg hb]

/-- One block of `files_content` (src/main.py lines 370-373): header line,
file text, footer line. -/
def formatEntry (relPath content : String) : String :=
  "<!-- " ++ relPath ++ " -->" ++ "\n" ++ content ++ "\n"
    ++ "<!-- end of " ++ relPath ++ " -->"

/-- The selected-files assembly loop of `update_final_prompt` (src/main.py
lines 358-376): iterate over the checked indexes (in some list order), skip
directories, skip indexes that fail `index_valid`, and read each remaining
file through the oracle `read` — `none` models the I/O, permission or
encoding exception the `try/except` catches, on which the item is only
logged and skipped; a successful read appends one delimited block. -/
def files_content (t : Entry) (exts : List String) (relpath : Path → String)
    (read : Path → Option String) (checkedList : List Path) : List String :=
  checkedList.foldl
    (fun acc p =>
      if isDir t p then acc
      else if !index_valid t exts p then acc
      else
        match read p with
        | some content => acc ++ [formatEntry (relpath p) content]
        | none => acc) []

/-- `str.endswith('.txt')` of the preset/tasktype loaders. -/
def endsWithTxt (fn : String) : Bool :=
  List.isSuffixOf ".txt".data fn.data

/-- The root part of `os.path.splitext`: the name up to its last dot, where
the leading dots of the name never count as an extension separator. -/
def splitextRoot (fn : String) : String :=
  let cs := fn.data
  let lead := (cs.takeWhile (fun c => c = '.')).length
  match afterLastDot (cs.drop lead) with
  | some r => ⟨cs.take (cs.length - r.length - 1)⟩
  | none => fn

/-- `load_presets` (src/main.py lines 286-301; `load_tasktypes`,
lines 303-318, is identical): iterate over the directory listing, keep
`.txt` entries, read each through the oracle `read` (`none` models the
caught read exception, on which the entry is only logged and skipped), and
record the name-without-extension with the file's content. -/
def load_presets (read : String → Option String) (filenames : List String) :
    List (String × String) :=
  filenames.foldl
    (fun acc fn =>
      if endsWithTxt fn then
        match read fn with
        | some content => acc ++ [(splitextRoot fn, content)]
        | none => acc
      else acc) []

theorem files_content_eq (t : Entry) (exts : List String) (relpath : Path → String)
    (read : Path → Option String) :
    ∀ (L : List Path) (acc : List String),
      L.foldl
        (fun acc p =>
          if isDir t p then acc
          else if !index_valid t exts p then acc
          else
            match read p with
            | some content => acc ++ [formatEntry (relpath p) content]
            | none => acc) acc
      = acc ++ L.filterMap
          (fun p =>
            if isDir t p then none
            else if !index_valid t exts p then none
            else (read p).map (fun content => formatEntry (relpath p) content)) := by
  intro L
  induction L with
  | nil => intro acc; simp
  | cons p L ih =>
    intro acc
    rw [List.foldl_cons, List.filterMap_cons]
    by_cases hd : isDir t p
    · rw [if_pos hd, if_pos hd, ih]
    · rw [if_neg hd, if_neg hd]
      by_cases hv : index_valid t exts p
      · rw [if_neg (by simp [hv]), if_neg (by simp [hv])]
        cases hr : read p with
        | none => rw [ih]; simp
        | some content => rw [ih]; simp
      · rw [if_pos (by simp [hv]), if_pos (by simp [hv]), ih]

theorem load_presets_eq (read : String → Option String) :
    ∀ (L : List String) (acc : List (String × String)),
      L.foldl
        (fun acc fn =>
          if endsWithTxt fn then
            match read fn with
            | some content => acc ++ [(splitextRoot fn, content)]
            | none => acc
          else acc) acc
      = acc ++ L.filterMap
          (fun fn =>
            if endsWithTxt fn then (read fn).map (fun c => (splitextRoot fn, c))
            else none) := by
  intro L
  induction L with
  | nil => intro acc; simp
  | cons fn L ih =>
    intro acc
    rw [List.foldl_cons, List.filterMap_cons]
    by_cases ht : endsWithTxt fn
    · rw [if_pos ht, if_pos ht]
      cases hr : read fn with
      | none => rw [ih]; simp
      | some content => rw [ih]; simp
    · rw [if_neg ht, if_neg ht, ih]

/-- C8: a failing read is caught and only skips its own item.  The assembled
`files_content` (and likewise the preset table) contains one block for every
item whose read succeeds, and nothing else — every block of the output comes
from a successful read, so a failed item is simply omitted while all other
successfully read items are present; the functions are total, so no
exception reaches the caller. -/
theorem c8_failed_reads_skipped (t : Entry) (exts : List String)
    (relpath : Path → String) (read : Path → Option String)
    (checkedList : List Path) (readP : String → Option String)
    (filenames : List String) :
    (∀ p ∈ checkedList, isDir t p = false → index_valid t exts p = true →
      ∀ c, read p = some c →
        formatEntry (relpath p) c ∈ files_content t exts relpath read checkedList) ∧
    (∀ x ∈ files_content t exts relpath read checkedList,
      ∃ p ∈ checkedList, isDir t p = false ∧ index_valid t exts p = true ∧
        ∃ c, read p = some c ∧ x = formatEntry (relpath p) c) ∧
    (∀ fn ∈ filenames, endsWithTxt fn = true → ∀ c, readP fn = some c →
      (splitextRoot fn, c) ∈ load_presets readP filenames) ∧
    (∀ y ∈ load_presets readP filenames,
      ∃ fn ∈ filenames, endsWithTxt fn = true ∧ ∃ c, readP fn = some c ∧
        y = (splitextRoot fn, c)) := by
  refine ⟨?_, ?_, ?_, ?_⟩
  · intro p hp hd hv c hc
    unfold files_content
    rw [files_content_eq, List.nil_append]
    apply List.mem_filterMap.mpr
    exact ⟨p, hp, by rw [if_neg (by simp [hd]), if_neg (by simp [hv]), hc]; rfl⟩
  · intro x hx
    unfold files_content at hx
    rw [files_content_eq, List.nil_append] at hx
    obtain ⟨p, hp, hval⟩ := List.mem_filterMap.mp hx
    by_cases hd : isDir t p
    · rw [if_pos hd] at hval; simp at hval
    · rw [if_neg hd] at hval
      by_cases hv : index_valid t exts p
      · rw [if_neg (by simp [hv])] at hval
        obtain ⟨c, hc, hfmt⟩ := Option.map_eq_some'.mp hval
        exact ⟨p, hp, by simpa using hd, hv, c, hc, hfmt.symm⟩
      · rw [if_pos (by simp [hv])] at hval; simp at hval
  · intro fn hfn ht c hc
    unfold load_presets
    rw [load_presets_eq, List.nil_append]
    apply List.mem_filterMap.mpr
    exact ⟨fn, hfn, by rw [if_pos ht, hc]; rfl⟩
  · intro y hy
    unfold load_presets at hy
    rw [load_presets_eq, List.nil_append] at hy
    obtain ⟨fn, hfn, hval⟩ := List.mem_filterMap.mp hy
    by_cases ht : endsWithTxt fn
    · rw [if_pos ht] at hval
      obtain ⟨c, hc, hpair⟩ := Option.map_eq_some'.mp hval
      exact ⟨fn, hfn, ht, c, hc, hpair.symm⟩
    · rw [if_neg ht] at hval; simp at hval

/-- Witness for C8: a two-item selection where one read succeeds and one
fails, and a two-file preset directory where one read fails — each failure
is omitted while the successful item is present. -/
theorem c8_failed_reads_skipped_witness :
    formatEntry "a.py" "ok" ∈ files_content treeC extensionsList (fun _ => "a.py")
      (fun p => if p = [0, 0] then some "ok" else none) [[0, 0], [0, 1, 0]] ∧
    (splitextRoot "p1.txt", "hello") ∈ load_presets
      (fun fn => if fn = "p1.txt" then some "hello" else none)
      ["p1.txt", "broken.txt"] := by
  constructor
  · exact (c8_failed_reads_skipped treeC extensionsList (fun _ => "a.py")
      (fun p => if p = [0, 0] then some "ok" else none) [[0, 0], [0, 1, 0]]
      (fun fn => if fn = "p1.txt" then some "hello" else none)
      ["p1.txt", "broken.txt"]).1 [0, 0] (by decide) (by decide) (by decide)
      "ok" (by decide)
  · exact (c8_failed_reads_skipped treeC extensionsList (fun _ => "a.py")
      (fun p => if p = [0, 0] then some "ok" else none) [[0, 0], [0, 1, 0]]
      (fun fn => if fn = "p1.txt" then some "hello" else none)
      ["p1.txt", "broken.txt"]).2.2.1 "p1.txt" (by decide) (by decide)
      "hello" (by decide)

mutual

/-- Absolute indexes of the descendant file nodes (the leaves) of an entry
sitting at index `pfx`. -/
def Entry.leavesBelow : Entry → Path → List Path
  | .file _, _ => []
  | .dir _ cs, pfx => Entry.leavesBelowList cs 0 pfx

/-- Worker over a child list whose first element is row `j0` of `pfx`. -/
def Entry.leavesBelowList : List Entry → Nat → Path → List Path
  | [], _, _ => []
  | .file _ :: es, j0, pfx => (j0 :: pfx) :: Entry.leavesBelowList es (j0 + 1) pfx
  | .dir n cs :: es, j0, pfx =>
      Entry.leavesBelow (.dir n cs) (j0 :: pfx)
        ++ Entry.leavesBelowList es (j0 + 1) pfx

end

/-- The leaves of the directory at index `D`: every descendant file node of
the subtree rooted there. -/
def leavesUnder (t : Entry) (D : Path) : List Path :=
  match nodeAt t D with
  | some e => Entry.leavesBelow e D
  | none => []

mutual

theorem mem_leavesBelow (e : Entry) (pfx q : Path) :
    q ∈ Entry.leavesBelow e pfx ↔
      ∃ x, x ≠ [] ∧ q = x ++ pfx ∧ ∃ nm, nodeAt e x = some (.file nm) := by
  cases e with
  | file nm0 =>
    simp only [Entry.leavesBelow]
    constructor
    · intro h
      exact absurd h (List.not_mem_nil q)
    · rintro ⟨x, hx, _, nm, hnm⟩
      rw [nodeAt_file_nil hx] at hnm
      exact absurd hnm (by simp)
  | dir n cs =>
    simp only [Entry.leavesBelow]
    rw [mem_leavesBelowList cs 0 pfx q]
    constructor
    · rintro ⟨k, e', x, hk, hq, nm, hnm⟩
      have hk' : nodeAt (Entry.dir n cs) [k] = some e' := by
        rw [nodeAt_cons]
        exact hk
      refine ⟨x ++ [k], by simp, ?_, nm, ?_⟩
      · rw [hq, List.append_assoc, List.singleton_append, Nat.zero_add]
      · rw [nodeAt_append_some x hk']
        exact hnm
    · rintro ⟨x', hx', hq, nm, hnm⟩
      rcases List.eq_nil_or_concat x' with rfl | ⟨x, k, rfl⟩
      · exact absurd rfl hx'
      · rw [List.concat_eq_append] at hq hnm
        cases hk : cs[k]? with
        | none =>
          have hk' : nodeAt (Entry.dir n cs) [k] = none := by
            rw [nodeAt_cons]
            exact hk
          rw [nodeAt_append, hk'] at hnm
          exact absurd hnm (by simp)
        | some e' =>
          have hk' : nodeAt (Entry.dir n cs) [k] = some e' := by
            rw [nodeAt_cons]
            exact hk
          rw [nodeAt_append_some x hk'] at hnm
          refine ⟨k, e', x, hk, ?_, nm, hnm⟩
          rw [hq, List.append_assoc, List.singleton_append, Nat.zero_add]

theorem mem_leavesBelowList (es : List Entry) (j0 : Nat) (pfx q : Path) :
    q ∈ Entry.leavesBelowList es j0 pfx ↔
      ∃ k e' x, es[k]? = some e' ∧ q = x ++ ((j0 + k) :: pfx) ∧
        ∃ nm, nodeAt e' x = some (.file nm) := by
  cases es with
  | nil =>
    simp only [Entry.leavesBelowList]
    constructor
    · intro h
      exact absurd h (List.not_mem_nil q)
    · rintro ⟨k, e', x, hk, _⟩
      simp at hk
  | cons e es' =>
    cases e with
    | file nm0 =>
      simp only [Entry.leavesBelowList]
      rw [List.mem_cons, mem_leavesBelowList es' (j0 + 1) pfx q]
      constructor
      · rintro (rfl | ⟨k, e', x, hk, hq, nm, hnm⟩)
        · exact ⟨0, .file nm0, [], List.getElem?_cons_zero, by simp, nm0, rfl⟩
        · refine ⟨k + 1, e', x, by simpa using hk, ?_, nm, hnm⟩
          rw [hq, show j0 + (k + 1) = j0 + 1 + k from by omega]
      · rintro ⟨k, e', x, hk, hq, nm, hnm⟩
        cases k with
        | zero =>
          rw [List.getElem?_cons_zero] at hk
          obtain rfl : Entry.file nm0 = e' := Option.some.inj hk
          left
          rcases List.eq_nil_or_concat x with rfl | ⟨x'', k'', rfl⟩
          · rw [hq, List.nil_append, Nat.add_zero]
          · rw [nodeAt_file_nil (by simp)] at hnm
            exact absurd hnm (by simp)
        | succ k' =>
          rw [List.getElem?_cons_succ] at hk
          right
          refine ⟨k', e', x, hk, ?_, nm, hnm⟩
          rw [hq, show j0 + (k' + 1) = j0 + 1 + k' from by omega]
    | dir n cs =>
      simp only [Entry.leavesBelowList]
      rw [List.mem_append, mem_leavesBelow (.dir n cs) (j0 :: pfx) q,
        mem_leavesBelowList es' (j0 + 1) pfx q]
      constructor
      · rintro (⟨x, _, hq, nm, hnm⟩ | ⟨k, e', x, hk, hq, nm, hnm⟩)
        · exact ⟨0, .dir n cs, x, List.getElem?_cons_zero,
            by rw [hq, Nat.add_zero], nm, hnm⟩
        · refine ⟨k + 1, e', x, by simpa using hk, ?_, nm, hnm⟩
          rw [hq, show j0 + (k + 1) = j0 + 1 + k from by omega]
      · rintro ⟨k, e', x, hk, hq, nm, hnm⟩
        cases k with
        | zero =>
          rw [List.getElem?_cons_zero] at hk
          obtain rfl : Entry.dir n cs = e' := Option.some.inj hk
          left
          refine ⟨x, ?_, by rw [hq, Nat.add_zero], nm, hnm⟩
          intro hxe
          rw [hxe, show nodeAt (Entry.dir n cs) [] = some (.dir n cs) from rfl]
            at hnm
          exact absurd hnm (by simp)
        | succ k' =>
          rw [List.getElem?_cons_succ] at hk
          right
          refine ⟨k', e', x, hk, ?_, nm, hnm⟩
          rw [hq, show j0 + (k' + 1) = j0 + 1 + k' from by omega]

end

/-- Characterization of `leavesUnder`: exactly the non-directory nodes of
the tree lying strictly below `D`. -/
theorem mem_leavesUnder (t : Entry) (D : Path) :
    ∀ q, q ∈ leavesUnder t D ↔
      (isDir t q = false ∧ (nodeAt t q).isSome = true ∧
        ∃ x, x ≠ [] ∧ q = x ++ D) := by
  intro q
  unfold leavesUnder
  cases hD : nodeAt t D with
  | none =>
    constructor
    · intro h
      exact absurd h (List.not_mem_nil q)
    · rintro ⟨_, hs, x, hx, rfl⟩
      obtain ⟨e', he'⟩ := Option.isSome_iff_exists.mp hs
      have hsD := nodeAt_isSome_of_append he'
      rw [hD] at hsD
      exact absurd hsD (by simp)
  | some e =>
    rw [mem_leavesBelow e D q]
    constructor
    · rintro ⟨x, hx, rfl, nm, hnm⟩
      have habs : nodeAt t (x ++ D) = some (.file nm) := by
        rw [nodeAt_append_some x hD]
        exact hnm
      exact ⟨isDir_false_of_file habs, by rw [habs]; rfl, x, hx, rfl⟩
    · rintro ⟨hd, hs, x, hx, rfl⟩
      obtain ⟨e'', he''⟩ := Option.isSome_iff_exists.mp hs
      rw [nodeAt_append_some x hD] at he''
      cases e'' with
      | dir n' cs' =>
        have : isDir t (x ++ D) = true := by
          unfold isDir
          rw [nodeAt_append_some x hD, he'']
        rw [this] at hd
        exact absurd hd (by simp)
      | file nm =>
        exact ⟨x, hx, rfl, nm, he''⟩

/-- Once some immediate file child of `D` is checked, checking further
leaves never unchecks it, and every rewrite of `D` along a parent chain sees
that positive aggregate — so `D` stays in the selection set through the rest
of a check-only pass. -/
theorem check_fold_keeps_dir {t : Entry} {D : Path} {j : Nat}
    (hj : j < rowCount t D) (hd : isDir t (j :: D) = false) :
    ∀ (L : List Path) (s : Finset Path), (j :: D) ∈ s → D ∈ s →
      D ∈ L.foldl (fun s p => setDataFile t p true s) s := by
  intro L
  induction L with
  | nil =>
    intro s _ hD
    simpa using hD
  | cons l L ih =>
    intro s hc hD
    rw [List.foldl_cons]
    apply ih
    · unfold setDataFile
      rw [mem_update_parent_of_not_isDir hd, applyCheck_true]
      exact Finset.mem_insert_of_mem hc
    · unfold setDataFile
      rw [applyCheck_true]
      by_cases hch : D ∈ chain t l
      · rw [mem_update_parent_of_mem_chain hch]
        exact checkedCount_pos_of_mem hj hd (Finset.mem_insert_of_mem hc)
      · rw [mem_update_parent_of_not_mem_chain hch]
        exact Finset.mem_insert_of_mem hD

/-- A check-only pass over a list of indexes containing some immediate file
child of `D` ends with `D` in the selection set: that child's own
`update_parent` rewrites `D` to a positive aggregate, and the rest of the
pass keeps it there. -/
theorem check_fold_mem_dir {t : Entry} {D : Path} {j : Nat}
    (hj : j < rowCount t D) (hd : isDir t (j :: D) = false)
    (L : List Path) (s : Finset Path) (hmem : (j :: D) ∈ L) :
    D ∈ L.foldl (fun s p => setDataFile t p true s) s := by
  obtain ⟨l1, l2, rfl⟩ := List.append_of_mem hmem
  rw [List.foldl_append, List.foldl_cons]
  apply check_fold_keeps_dir hj hd
  · rw [mem_setDataFile_self hd]
  · unfold setDataFile
    rw [applyCheck_true,
      mem_update_parent_of_mem_chain (mem_chain_of_child hj hd)]
    exact checkedCount_pos_of_mem hj hd (Finset.mem_insert_self _ _)

/-- C3 (amended): for every directory `D` whose leaves `L1..Ln` include at
least one immediate (non-directory) file child of `D`, checking every leaf
of `D` individually — the list `L` enumerating exactly the leaves of `D`,
in any order, from any common initial state — yields the same aggregate
checked state for `D` as invoking `setData(D, Checked)` on `D`'s own
toggle: both leave `D` in the selection set.  (The counterexample shows the
two routes can disagree when `D` has no immediate file child.) -/
theorem c3_all_leaves_equiv (t : Entry) (D : Path) (s : Finset Path)
    (L : List Path)
    (hL : ∀ p, p ∈ L ↔ (isDir t p = false ∧ (nodeAt t p).isSome = true ∧
      ∃ x, x ≠ [] ∧ p = x ++ D))
    (hft : 0 < fileTotal t D) :
    (D ∈ L.foldl (fun s p => setData t p true s) s) ∧ D ∈ setData t D true s := by
  refine ⟨?_, mem_setData_self t D s⟩
  have hft' := hft
  unfold fileTotal at hft'
  obtain ⟨j, hjr, hpred⟩ := List.countP_pos_iff.mp hft'
  have hj : j < rowCount t D := List.mem_range.mp hjr
  have hd : isDir t (j :: D) = false := by simpa using hpred
  have hfiles : ∀ p ∈ L, isDir t p = false := fun p hp => ((hL p).mp hp).1
  have hmem : (j :: D) ∈ L := by
    rw [hL]
    obtain ⟨e, he⟩ := nodeAt_child_some hj
    exact ⟨hd, by rw [he]; rfl, [j], by simp, rfl⟩
  rw [fold_setData_eq_file t true L s hfiles]
  exact check_fold_mem_dir hj hd L s hmem

/-- Witness for C3: in `treeC` the leaves of `D = [0]` are
`a.py = [0,0]` (an immediate file child) and `c.py = [0,1,0]`; checking
every one of them individually and toggling `D` both end with `D`
checked. -/
theorem c3_all_leaves_equiv_witness :
    (([0] : Path) ∈ (leavesUnder treeC [0]).foldl
        (fun s p => setData treeC p true s) ∅) ∧
    ([0] : Path) ∈ setData treeC [0] true ∅ :=
  c3_all_leaves_equiv treeC [0] ∅ (leavesUnder treeC [0])
    (mem_leavesUnder treeC [0]) (by decide)

end SimpCop
